import Mathlib

/-
Verification development for WoWLocaleTool (t.py).

The program walks a directory tree for .lua files, skips files whose path
contains an excluded directory name, extracts localization-string literals
with the regex

  (ID1|ID2|...)\s*[\[\(](["!])((?:(?!\2).)*)\2[\]\)]

(the character class after the opening bracket is a double quote or a single
quote; we write squote for the single-quote character), accumulates them per
file into an insertion-ordered mapping keyed by the composite string
IDENT plus the literal in canonical bracket/quote style, and writes all
blocks to a single target file.

The embedding below translates each function of t.py over List Char / String:
  isSpace, matchAfterIdent, matchIdentsAt, findAll  - the regex and re.findall
  extractMatches, extract_localization_strings      - extract_localization_strings
  LuaFile, isExcluded, process_directory            - process_directory
  serializeBlocks, writeTarget                      - the output-writing loop
Python regex notes reflected here: the dot does not match a newline, the
alternation tries identifiers in list order, \s is modelled over its ASCII
range (the inputs of interest are ASCII), and re.findall returns the
non-overlapping matches in left-to-right order, resuming after each match.
-/

/-- The single-quote character (written via its code point to keep source
clean of quote-escaping noise). -/
def squote : Char := Char.ofNat 39

/-- The newline character. -/
def nl : Char := Char.ofNat 10

/-- Python regex class backslash-s, modelled over its ASCII range. -/
def isSpace (c : Char) : Bool :=
  c == ' ' || c == '\t' || c == nl || c == '\r' || c == '\x0b' || c == '\x0c'

/-- The opening-bracket class of the pattern. -/
def isOpenBracket (c : Char) : Bool := c == '[' || c == '('

/-- The closing-bracket class of the pattern. -/
def isCloseBracket (c : Char) : Bool := c == ']' || c == ')'

/-- The quote class of the pattern. -/
def isQuote (c : Char) : Bool := c == '"' || c == squote

/-- A character admissible inside the quoted literal, given the opening quote
q: the regex piece (?:(?!q).)* accepts any character other than q and other
than a newline (the regex dot excludes newlines). -/
def contOk (q c : Char) : Bool := c != q && c != nl

/-- Matching the pattern after the identifier token: optional whitespace, an
opening bracket, a quote q, a maximal run of characters admissible under q,
the same quote again, and a closing bracket.  On success returns the literal
run and the remaining input after the closing bracket.  The greedy run is
forced: its characters cannot be q, so it always ends at the first q or
newline, and the match succeeds exactly when it ends at q followed by a
closing bracket. -/
def matchAfterIdent (s : List Char) : Option (List Char × List Char) :=
  match s.dropWhile isSpace with
  | b :: q :: s3 =>
    if isOpenBracket b && isQuote q then
      match s3.dropWhile (contOk q) with
      | q2 :: cb :: s4 =>
        if q2 == q && isCloseBracket cb then some (s3.takeWhile (contOk q), s4)
        else none
      | _ => none
    else none
  | _ => none

/-- Matching the whole pattern at the start of s: the alternation tries the
identifier tokens in list order; the first token that is a literal prefix of
s and whose continuation matches wins (Python alternation backtracks to the
next alternative when the continuation fails). -/
def matchIdentsAt : List String → List Char → Option (String × List Char × List Char)
  | [], _ => none
  | tok :: rest, s =>
    if tok.toList.isPrefixOf s then
      match matchAfterIdent (s.drop tok.toList.length) with
      | some (lit, rem) => some (tok, lit, rem)
      | none => matchIdentsAt rest s
    else matchIdentsAt rest s

/-- Fuelled scanner underlying findAll: at each position try the pattern;
on a match, record (token, literal) and resume after the match, otherwise
advance one character.  Every successful match consumes at least four
characters, so fuel equal to the length of the input always suffices. -/
def findAllFuel (idents : List String) : Nat → List Char → List (String × List Char)
  | 0, _ => []
  | _ + 1, [] => []
  | fuel + 1, c :: rest =>
    match matchIdentsAt idents (c :: rest) with
    | some (tok, lit, rem) => (tok, lit) :: findAllFuel idents fuel rem
    | none => findAllFuel idents fuel rest

/-- re.findall over the whole content: all non-overlapping matches in
left-to-right order, as (token, literal) group pairs. -/
def findAll (idents : List String) (s : List Char) : List (String × List Char) :=
  findAllFuel idents s.length s

/-- The composite key built for a match: the token, then the literal in
canonical square-bracket double-quote style. -/
def mkKey (tok : String) (lit : List Char) : String :=
  tok ++ "[\"" ++ String.mk lit ++ "\"]"

/-- Insertion-ordered map update, as a Python dict assignment: replace the
value at an existing key in place, otherwise append the new pair. -/
def insertKV {α : Type} (k : String) (v : α) : List (String × α) → List (String × α)
  | [] => [(k, v)]
  | (k2, v2) :: t => if k2 == k then (k2, v) :: t else (k2, v2) :: insertKV k v t

/-- One step of the accumulation loop over the matches. -/
def extractStep (m : List (String × String)) (p : String × List Char) :
    List (String × String) :=
  insertKV (mkKey p.1 p.2) (String.mk p.2) m

/-- The per-file result mapping built from decoded content. -/
def extractMatches (idents : List String) (content : List Char) :
    List (String × String) :=
  (findAll idents content).foldl extractStep []

/-- extract_localization_strings of t.py: a file either decodes to content
(some) or raises UnicodeDecodeError (none); on failure an error message is
printed and the empty mapping is returned. -/
def extract_localization_strings (idents : List String) (decoded : Option (List Char)) :
    List (String × String) :=
  match decoded with
  | some content => extractMatches idents content
  | none => []

/-- A .lua file as the walker sees it: the segments of its full path (as
Python Path.parts), the path relative to the source root (as a string, the
aggregation key), and its decoded content, none when decoding with the
configured encoding fails. -/
structure LuaFile where
  parts : List String
  relPath : String
  decoded : Option (List Char)

/-- get_default_excluded_dirs of t.py. -/
def get_default_excluded_dirs : List String :=
  ["language", "lang", "local", "locales", "locale", "locals", "dict", "lib", "libs"]

/-- Python str.lower, modelled over its ASCII range (all names of interest
are ASCII). -/
def strLower (s : String) : String := String.mk (s.data.map Char.toLower)

/-- The exclusion test of process_directory: some excluded name, lowercased,
is literally equal to some segment of the path (tuple membership in Python;
note the segment itself is not lowercased by the code). -/
def isExcluded (excluded : List String) (f : LuaFile) : Bool :=
  excluded.any (fun e => f.parts.contains (strLower e))

/-- The run state of process_directory: the per-file blocks mapping, the
processed-file counter, and the relative paths of files whose decode failed
(the error messages printed). -/
structure RunResult where
  blocks : List (String × List (String × String))
  count : Nat
  decodeErrors : List String

/-- The body of the walk loop of process_directory for one yielded file. -/
def processStep (excluded idents : List String) (r : RunResult) (f : LuaFile) :
    RunResult :=
  if isExcluded excluded f then r
  else
    let strings := extract_localization_strings idents f.decoded
    { blocks := if strings.isEmpty then r.blocks else insertKV f.relPath strings r.blocks
      count := r.count + 1
      decodeErrors :=
        if f.decoded.isNone then r.decodeErrors ++ [f.relPath] else r.decodeErrors }

/-- process_directory of t.py over the files yielded by rglob, in traversal
order (rglob yields exactly the .lua files below the source root). -/
def process_directory (excluded idents : List String) (files : List LuaFile) :
    RunResult :=
  files.foldl (processStep excluded idents) ⟨[], 0, []⟩

/-- One output line for one key/value pair, appended to the accumulator. -/
def serializeEntry (acc : String) (kv : String × String) : String :=
  acc ++ kv.1 ++ " = \"" ++ kv.2 ++ "\"\n"

/-- One output block for one file: the comment line with the relative path,
the key lines, and a blank separator line. -/
def serializeBlock (acc : String) (b : String × List (String × String)) : String :=
  acc ++ "--" ++ b.1 ++ "\n" ++ b.2.foldl serializeEntry "" ++ "\n"

/-- The write loop of process_directory: all blocks in mapping order. -/
def serializeBlocks (blocks : List (String × List (String × String))) : String :=
  blocks.foldl serializeBlock ""

/-- The contents of the target file after the run.  The file is opened in
mode w, which truncates: the prior contents do not influence the result. -/
def writeTarget (prior : String) (blocks : List (String × List (String × String))) :
    String :=
  serializeBlocks blocks

/-
Spec-side definitions, written from the wording of the specification, to be
compared with the code-derived definitions above.
-/

/-- Spec-side literal constraint as the spec states it: a run of characters
none of which equals the opening quote. -/
def litNoQuote (q : Char) (lit : List Char) : Prop := ∀ c ∈ lit, c ≠ q

/-- Amended literal constraint: additionally no character is a newline (the
regex dot does not match a newline). -/
def litNoQuoteNoNewline (q : Char) (lit : List Char) : Prop :=
  ∀ c ∈ lit, c ≠ q ∧ c ≠ nl

/-- Spec-side grammar of one match with a given token and literal: the token,
optional whitespace, an opening bracket that is a square or round bracket, a
quote that is a double or single quote, the literal subject to the constraint
P, the same quote, and a closing bracket that is a square or round bracket,
accepted regardless of which opening bracket was used. -/
def specFormWithP (P : Char → List Char → Prop) (tok : String) (lit xs : List Char) :
    Prop :=
  ∃ ws ob q cb,
    xs = tok.toList ++ ws ++ ob :: q :: (lit ++ q :: [cb]) ∧
    (∀ c ∈ ws, isSpace c = true) ∧
    (ob = '[' ∨ ob = '(') ∧
    (q = '"' ∨ q = squote) ∧
    P q lit ∧
    (cb = ']' ∨ cb = ')')

/-- Spec-side grammar of one match: some identifier token followed by the
bracketed quoted literal. -/
def specClaimMatch (P : Char → List Char → Prop) (idents : List String)
    (xs : List Char) : Prop :=
  ∃ tok, tok ∈ idents ∧ ∃ lit, specFormWithP P tok lit xs

/-- The subsequence of first occurrences of a list of keys, given the keys
already seen. -/
def firstOccAux : List String → List String → List String
  | _, [] => []
  | seen, k :: ks =>
    if seen.contains k then firstOccAux seen ks
    else k :: firstOccAux (k :: seen) ks

/-- The keys of a list in order of first occurrence, without repetition. -/
def firstOccurrences (ks : List String) : List String := firstOccAux [] ks

/-- First-match association lookup. -/
def lookupKV {α : Type} (k : String) : List (String × α) → Option α
  | [] => none
  | (k2, v) :: t => if k2 == k then some v else lookupKV k t

/-- The value of the last pair with the given key, in list order. -/
def lastLookup {α : Type} (k : String) (ps : List (String × α)) : Option α :=
  ps.foldl (fun acc p => if p.1 == k then some p.2 else acc) none

/-- Spec-side block list: for the non-excluded files, in traversal order,
the relative path with the extracted mapping, keeping only files that
produced at least one string. -/
def specBlockList (excluded idents : List String) (files : List LuaFile) :
    List (String × List (String × String)) :=
  ((files.filter (fun f => !(isExcluded excluded f))).map
    (fun f => (f.relPath, extract_localization_strings idents f.decoded))).filter
    (fun b => !b.2.isEmpty)

/-- Spec-side serialization, from section 4.4 of the specification: per block
a comment line containing the relative path, one line per key of the form
KEY = "VALUE" with the raw extracted literal, then a blank line. -/
def specSerialize (excluded idents : List String) (files : List LuaFile) : String :=
  (specBlockList excluded idents files).foldl
    (fun acc b =>
      acc ++ "--" ++ b.1 ++ "\n" ++
        b.2.foldl (fun a kv => a ++ kv.1 ++ " = \"" ++ kv.2 ++ "\"\n") "" ++ "\n")
    ""

/-
Concrete fixtures for counterexamples and witnesses.
-/

/-- A file whose path contains the segment Locale, differing only in case
from the default excluded name locale. -/
def localeFile : LuaFile :=
  { parts := ["Addons", "MyAddon", "Locale", "strings.lua"]
    relPath := "MyAddon/Locale/strings.lua"
    decoded := some [] }

/-- A decodable file with one match. -/
def goodFile : LuaFile :=
  { parts := ["src", "a.lua"], relPath := "a.lua", decoded := some "L[\"x\"]".toList }

/-- A file whose decode fails. -/
def badFile : LuaFile :=
  { parts := ["src", "b.lua"], relPath := "b.lua", decoded := none }

/-- File content holding the two occurrences of the worked spec example:
a double-quoted square-bracket call and a single-quoted round-bracket call. -/
def exampleContent : List Char :=
  "L[\"Hello\"] AL(".toList ++ squote :: ("World".toList ++ squote :: [')'])

/-- Identifier list exhibiting a composite-key collision between two
distinct matches. -/
def collisionIdents : List String := ["L", "L[\"a"]

/-- Content with two matches whose composite keys coincide while their
literals differ: the first is a single-quoted literal containing bracket and
double-quote characters, the second uses the longer identifier token. -/
def collisionContent : List Char :=
  ['L', '['] ++ squote :: ("a[\"x".toList ++ squote :: ([']', ' '] ++
    "L[\"a(".toList ++ squote :: ('x' :: squote :: [')'])))

/-- Content whose only candidate literal spans a line break. -/
def newlineContent : List Char := "L[\"a".toList ++ nl :: "b\"]".toList


/-
Helper lemmas: character classes.
-/

theorem openBracket_elim {c : Char} (h : isOpenBracket c = true) :
    c = '[' ∨ c = '(' := by
  simpa [isOpenBracket] using h

theorem openBracket_intro {c : Char} (h : c = '[' ∨ c = '(') :
    isOpenBracket c = true := by
  rcases h with h | h <;> subst h <;> decide

theorem closeBracket_elim {c : Char} (h : isCloseBracket c = true) :
    c = ']' ∨ c = ')' := by
  simpa [isCloseBracket] using h

theorem closeBracket_intro {c : Char} (h : c = ']' ∨ c = ')') :
    isCloseBracket c = true := by
  rcases h with h | h <;> subst h <;> decide

theorem quote_elim {c : Char} (h : isQuote c = true) : c = '"' ∨ c = squote := by
  simpa [isQuote] using h

theorem quote_intro {c : Char} (h : c = '"' ∨ c = squote) : isQuote c = true := by
  rcases h with h | h <;> subst h <;> decide

theorem open_not_space {c : Char} (h : isOpenBracket c = true) : isSpace c = false := by
  rcases openBracket_elim h with h | h <;> subst h <;> decide

theorem contOk_iff {q c : Char} : contOk q c = true ↔ c ≠ q ∧ c ≠ nl := by
  simp [contOk]

theorem contOk_self (q : Char) : contOk q q = false := by
  simp [contOk]

/-
Helper lemmas: takeWhile and dropWhile.
-/

theorem dropWhile_length_le (p : Char → Bool) (l : List Char) :
    (l.dropWhile p).length ≤ l.length := by
  induction l with
  | nil => simp
  | cons a t ih =>
    by_cases h : p a = true <;> simp [List.dropWhile, h] <;> omega

theorem takeWhile_all_stop {p : Char → Bool} :
    ∀ (xs : List Char) {y : Char} {ys : List Char},
      (∀ c ∈ xs, p c = true) → p y = false →
      (xs ++ y :: ys).takeWhile p = xs := by
  intro xs
  induction xs with
  | nil =>
    intro y ys _ hy
    simp [List.takeWhile, hy]
  | cons a t ih =>
    intro y ys hall hy
    have ha : p a = true := hall a (by simp)
    simp only [List.cons_append, List.takeWhile, ha]
    exact congrArg (List.cons a) (ih (fun c hc => hall c (by simp [hc])) hy)

theorem dropWhile_all_stop {p : Char → Bool} :
    ∀ (xs : List Char) {y : Char} {ys : List Char},
      (∀ c ∈ xs, p c = true) → p y = false →
      (xs ++ y :: ys).dropWhile p = y :: ys := by
  intro xs
  induction xs with
  | nil =>
    intro y ys _ hy
    simp [List.dropWhile, hy]
  | cons a t ih =>
    intro y ys hall hy
    have ha : p a = true := hall a (by simp)
    simp only [List.cons_append, List.dropWhile, ha]
    exact ih (fun c hc => hall c (by simp [hc])) hy

/-
Helper lemmas: the pattern matcher after an identifier.
-/

theorem matchAfterIdent_some {s lit rest : List Char}
    (h : matchAfterIdent s = some (lit, rest)) :
    ∃ ws ob q cb,
      s = ws ++ ob :: q :: (lit ++ q :: cb :: rest) ∧
      (∀ c ∈ ws, isSpace c = true) ∧
      isOpenBracket ob = true ∧
      isQuote q = true ∧
      (∀ c ∈ lit, contOk q c = true) ∧
      isCloseBracket cb = true := by
  unfold matchAfterIdent at h
  split at h
  case h_2 => exact absurd h (by simp)
  case h_1 b q s3 hd =>
    split at h
    case isFalse => exact absurd h (by simp)
    case isTrue hbq =>
      split at h
      case h_2 => exact absurd h (by simp)
      case h_1 q2 cb s4 hd2 =>
        split at h
        case isFalse => exact absurd h (by simp)
        case isTrue hq2 =>
          injection h with h1
          have hlit : lit = s3.takeWhile (contOk q) := (congrArg Prod.fst h1).symm
          have hrest : rest = s4 := (congrArg Prod.snd h1).symm
          rw [Bool.and_eq_true] at hq2 hbq
          obtain ⟨hq2e, hcb⟩ := hq2
          obtain ⟨hob, hq⟩ := hbq
          have hq2' : q2 = q := eq_of_beq hq2e
          rw [hq2'] at hd2
          refine ⟨s.takeWhile isSpace, b, q, cb, ?_, ?_, hob, hq, ?_, hcb⟩
          · have hs : s.takeWhile isSpace ++ s.dropWhile isSpace = s :=
              List.takeWhile_append_dropWhile isSpace s
            have hs3 : s3.takeWhile (contOk q) ++ s3.dropWhile (contOk q) = s3 :=
              List.takeWhile_append_dropWhile (contOk q) s3
            have hs3eq : s3 = lit ++ q :: cb :: rest := by
              rw [hlit, hrest, ← hd2]
              exact hs3.symm
            conv_lhs => rw [← hs]
            rw [hd, hs3eq]
          · intro c hc
            exact List.mem_takeWhile_imp hc
          · intro c hc
            rw [hlit] at hc
            exact List.mem_takeWhile_imp hc

theorem matchAfterIdent_of_form {ws lit rest : List Char} {ob q cb : Char}
    (hws : ∀ c ∈ ws, isSpace c = true) (hob : isOpenBracket ob = true)
    (hq : isQuote q = true) (hlit : ∀ c ∈ lit, contOk q c = true)
    (hcb : isCloseBracket cb = true) :
    matchAfterIdent (ws ++ ob :: q :: (lit ++ q :: cb :: rest)) = some (lit, rest) := by
  unfold matchAfterIdent
  rw [dropWhile_all_stop ws hws (open_not_space hob)]
  simp only [hob, hq, Bool.and_self, if_true, Bool.true_and, if_pos]
  rw [dropWhile_all_stop lit hlit (contOk_self q)]
  rw [takeWhile_all_stop lit hlit (contOk_self q)]
  simp [hcb]

theorem matchAfterIdent_length {s lit rest : List Char}
    (h : matchAfterIdent s = some (lit, rest)) :
    rest.length + 4 ≤ s.length := by
  obtain ⟨ws, ob, q, cb, hs, -, -, -, -, -⟩ := matchAfterIdent_some h
  subst hs
  simp [List.length_append]
  omega

/-
Helper lemmas: the full matcher at one position.
-/

theorem matchIdentsAt_length : ∀ {idents : List String} {s : List Char}
    {tok : String} {lit rem : List Char},
    matchIdentsAt idents s = some (tok, lit, rem) → rem.length < s.length := by
  intro idents
  induction idents with
  | nil =>
    intro s tok lit rem h
    simp [matchIdentsAt] at h
  | cons a t ih =>
    intro s tok lit rem h
    simp only [matchIdentsAt] at h
    split at h
    case isTrue hpre =>
      split at h
      case h_1 lit2 rem2 hma =>
        injection h with h1
        have hrem : rem = rem2 := by
          have := congrArg (fun p => p.2.2) h1
          exact this.symm
        subst hrem
        have hlen := matchAfterIdent_length hma
        have hd : (s.drop a.toList.length).length ≤ s.length := by
          rw [List.length_drop]
          omega
        omega
      case h_2 => exact ih h
    case isFalse => exact ih h

theorem matchIdentsAt_some_form : ∀ {idents : List String} {s : List Char}
    {tok : String} {lit rem : List Char},
    matchIdentsAt idents s = some (tok, lit, rem) →
    tok ∈ idents ∧ ∃ xs, s = xs ++ rem ∧ specFormWithP litNoQuoteNoNewline tok lit xs := by
  intro idents
  induction idents with
  | nil =>
    intro s tok lit rem h
    simp [matchIdentsAt] at h
  | cons a t ih =>
    intro s tok lit rem h
    simp only [matchIdentsAt] at h
    split at h
    case isTrue hpre =>
      split at h
      case h_1 lit2 rem2 hma =>
        simp only [Option.some.injEq, Prod.mk.injEq] at h
        obtain ⟨htok, hlit2, hrem2⟩ := h
        subst htok
        subst hlit2
        subst hrem2
        obtain ⟨tail, htail⟩ := List.isPrefixOf_iff_prefix.1 hpre
        have hda : (a.toList ++ tail).drop a.toList.length = tail := List.drop_left _ _
        rw [← htail, hda] at hma
        obtain ⟨ws, ob, q, cb, hteq, hws, hob, hq, hcl, hcb⟩ := matchAfterIdent_some hma
        refine ⟨List.mem_cons_self a t, a.toList ++ ws ++ ob :: q :: (lit2 ++ q :: [cb]),
          ?_, ?_⟩
        · rw [← htail, hteq]
          simp
        · exact ⟨ws, ob, q, cb, rfl, hws, openBracket_elim hob, quote_elim hq,
            fun c hc => contOk_iff.1 (hcl c hc), closeBracket_elim hcb⟩
      case h_2 =>
        obtain ⟨hmem, hrest⟩ := ih h
        exact ⟨List.mem_cons_of_mem a hmem, hrest⟩
    case isFalse =>
      obtain ⟨hmem, hrest⟩ := ih h
      exact ⟨List.mem_cons_of_mem a hmem, hrest⟩

theorem matchIdentsAt_isSome_cons {a : String} {t : List String} {s : List Char}
    (h : (matchIdentsAt t s).isSome = true) :
    (matchIdentsAt (a :: t) s).isSome = true := by
  simp only [matchIdentsAt]
  split
  case isTrue =>
    split
    case h_1 => simp
    case h_2 => exact h
  case isFalse => exact h

theorem matchIdentsAt_of_form : ∀ {idents : List String} {tok : String},
    tok ∈ idents → ∀ {lit xs rest : List Char},
    specFormWithP litNoQuoteNoNewline tok lit xs →
    (matchIdentsAt idents (xs ++ rest)).isSome = true := by
  intro idents
  induction idents with
  | nil => intro tok h; exact absurd h (List.not_mem_nil tok)
  | cons a t ih =>
    intro tok hmem lit xs rest hform
    rcases List.mem_cons.1 hmem with rfl | hmem2
    · obtain ⟨ws, ob, q, cb, hxs, hws, hob, hq, hP, hcb⟩ := hform
      have hx : xs ++ rest = tok.toList ++ (ws ++ ob :: q :: (lit ++ q :: cb :: rest)) := by
        subst hxs
        simp
      rw [hx]
      simp only [matchIdentsAt]
      have hpre : tok.toList.isPrefixOf
          (tok.toList ++ (ws ++ ob :: q :: (lit ++ q :: cb :: rest))) = true :=
        List.isPrefixOf_iff_prefix.2 (List.prefix_append _ _)
      rw [hpre]
      simp only [if_true]
      rw [List.drop_left]
      rw [matchAfterIdent_of_form hws (openBracket_intro hob) (quote_intro hq)
        (fun c hc => contOk_iff.2 (hP c hc)) (closeBracket_intro hcb)]
      simp
    · exact matchIdentsAt_isSome_cons (ih hmem2 hform)

/-
Helper lemmas: the scanner.
-/

theorem findAllFuel_congr : ∀ (f1 : Nat) {f2 : Nat} {idents : List String}
    {s : List Char}, s.length ≤ f1 → s.length ≤ f2 →
    findAllFuel idents f1 s = findAllFuel idents f2 s := by
  intro f1
  induction f1 with
  | zero =>
    intro f2 idents s h1 h2
    have hs : s = [] := List.eq_nil_of_length_eq_zero (Nat.le_zero.1 h1)
    subst hs
    cases f2 <;> simp [findAllFuel]
  | succ f ih =>
    intro f2 idents s h1 h2
    cases s with
    | nil => cases f2 <;> simp [findAllFuel]
    | cons c rest =>
      cases f2 with
      | zero => simp at h2
      | succ f2p =>
        simp only [findAllFuel]
        cases hm : matchIdentsAt idents (c :: rest) with
        | none =>
          simp only [List.length_cons] at h1 h2
          exact ih (by omega) (by omega)
        | some r =>
          obtain ⟨tok, lit, rem⟩ := r
          have hlen := matchIdentsAt_length hm
          simp only [List.length_cons] at h1 h2 hlen
          exact congrArg (List.cons (tok, lit)) (ih (by omega) (by omega))

theorem findAll_cons (idents : List String) (c : Char) (rest : List Char) :
    findAll idents (c :: rest) =
      match matchIdentsAt idents (c :: rest) with
      | some (tok, lit, rem) => (tok, lit) :: findAll idents rem
      | none => findAll idents rest := by
  show findAllFuel idents (rest.length + 1) (c :: rest) = _
  simp only [findAllFuel]
  cases hm : matchIdentsAt idents (c :: rest) with
  | none => rfl
  | some r =>
    obtain ⟨tok, lit, rem⟩ := r
    have hlen := matchIdentsAt_length hm
    simp only [List.length_cons] at hlen
    exact congrArg (List.cons (tok, lit)) (findAllFuel_congr rest.length (by omega) (le_refl _))

theorem findAll_form_aux : ∀ (n : Nat) {idents : List String} (s : List Char),
    s.length ≤ n → ∀ {tok : String} {lit : List Char},
    (tok, lit) ∈ findAll idents s →
    tok ∈ idents ∧ ∃ u xs v, s = u ++ xs ++ v ∧
      specFormWithP litNoQuoteNoNewline tok lit xs := by
  intro n
  induction n with
  | zero =>
    intro idents s hlen tok lit hm
    have hs : s = [] := List.eq_nil_of_length_eq_zero (Nat.le_zero.1 hlen)
    subst hs
    simp [findAll, findAllFuel] at hm
  | succ k ih =>
    intro idents s hlen tok lit hm
    cases s with
    | nil => simp [findAll, findAllFuel] at hm
    | cons c rest =>
      rw [findAll_cons] at hm
      cases hma : matchIdentsAt idents (c :: rest) with
      | none =>
        rw [hma] at hm
        simp only [List.length_cons] at hlen
        obtain ⟨hmem, u, xs, v, hdec, hform⟩ := ih rest (by omega) hm
        refine ⟨hmem, c :: u, xs, v, ?_, hform⟩
        rw [hdec]
        simp
      | some r =>
        obtain ⟨tok0, lit0, rem⟩ := r
        rw [hma] at hm
        rcases List.mem_cons.1 hm with heq | htail
        · have htok : tok = tok0 := congrArg Prod.fst heq
          have hlit : lit = lit0 := congrArg Prod.snd heq
          subst htok
          subst hlit
          obtain ⟨hmem, xs, hdec, hform⟩ := matchIdentsAt_some_form hma
          exact ⟨hmem, [], xs, rem, by simpa using hdec, hform⟩
        · have hrem := matchIdentsAt_length hma
          simp only [List.length_cons] at hlen hrem
          obtain ⟨hmem, u, xs, v, hdec, hform⟩ := ih rem (by omega) htail
          obtain ⟨-, xs0, hdec0, -⟩ := matchIdentsAt_some_form hma
          refine ⟨hmem, xs0 ++ u, xs, v, ?_, hform⟩
          rw [hdec0, hdec]
          simp

theorem findAll_form {idents : List String} {s : List Char} {tok : String}
    {lit : List Char} (h : (tok, lit) ∈ findAll idents s) :
    tok ∈ idents ∧ ∃ u xs v, s = u ++ xs ++ v ∧
      specFormWithP litNoQuoteNoNewline tok lit xs :=
  findAll_form_aux s.length s (le_refl _) h

theorem findAll_lit_ok {idents : List String} {s : List Char} {tok : String}
    {lit : List Char} (h : (tok, lit) ∈ findAll idents s) :
    ∀ c ∈ lit, c ≠ nl := by
  obtain ⟨-, u, xs, v, -, hform⟩ := findAll_form h
  obtain ⟨ws, ob, q, cb, -, -, -, -, hP, -⟩ := hform
  exact fun c hc => (hP c hc).2

/-
Helper lemmas: the insertion-ordered mapping.
-/

theorem mem_insertKV {α : Type} {k : String} {v : α} :
    ∀ {m : List (String × α)} {kv : String × α},
    kv ∈ insertKV k v m → kv = (k, v) ∨ kv ∈ m := by
  intro m
  induction m with
  | nil =>
    intro kv h
    simp [insertKV] at h
    exact Or.inl h
  | cons p t ih =>
    intro kv h
    obtain ⟨k2, v2⟩ := p
    simp only [insertKV] at h
    split at h
    case isTrue heq =>
      rcases List.mem_cons.1 h with h1 | h1
      · left
        rw [h1, eq_of_beq heq]
      · right
        exact List.mem_cons_of_mem _ h1
    case isFalse =>
      rcases List.mem_cons.1 h with h1 | h1
      · right
        rw [h1]
        exact List.mem_cons_self _ _
      · rcases ih h1 with h2 | h2
        · exact Or.inl h2
        · exact Or.inr (List.mem_cons_of_mem _ h2)

theorem map_fst_insertKV {α : Type} (k : String) (v : α) :
    ∀ (m : List (String × α)),
    (insertKV k v m).map Prod.fst =
      if k ∈ m.map Prod.fst then m.map Prod.fst else m.map Prod.fst ++ [k] := by
  intro m
  induction m with
  | nil => simp [insertKV]
  | cons p t ih =>
    obtain ⟨k2, v2⟩ := p
    simp only [insertKV]
    split
    case isTrue heq =>
      have : k2 = k := eq_of_beq heq
      subst this
      simp
    case isFalse hne =>
      have hne2 : k2 ≠ k := by
        intro hc
        subst hc
        simp at hne
      simp only [List.map_cons, ih]
      by_cases hk : k ∈ t.map Prod.fst
      · simp [hk, hne2.symm]
      · have : ¬(k = k2 ∨ k ∈ t.map Prod.fst) := by
          rintro (h | h)
          · exact hne2 h.symm
          · exact hk h
        simp [hk, List.mem_cons, this, hne2.symm]

theorem insertKV_append_of_not_mem {α : Type} {k : String} (v : α) :
    ∀ {m : List (String × α)}, k ∉ m.map Prod.fst →
    insertKV k v m = m ++ [(k, v)] := by
  intro m
  induction m with
  | nil => simp [insertKV]
  | cons p t ih =>
    obtain ⟨k2, v2⟩ := p
    intro hk
    simp only [List.map_cons, List.mem_cons] at hk
    push_neg at hk
    obtain ⟨hk2, hkt⟩ := hk
    have : (k2 == k) = false := by
      simp
      intro hc
      exact hk2 (hc.symm)
    simp only [insertKV, this, Bool.false_eq_true, if_false, List.cons_append]
    rw [ih hkt]

theorem lookupKV_insertKV {α : Type} (k2 k : String) (v : α) :
    ∀ (m : List (String × α)),
    lookupKV k2 (insertKV k v m) = if k2 = k then some v else lookupKV k2 m := by
  intro m
  induction m with
  | nil =>
    simp only [insertKV, lookupKV]
    by_cases h : k2 = k
    · subst h
      simp
    · have : (k == k2) = false := by
        simp
        exact fun hc => h hc.symm
      simp [h, this]
  | cons p t ih =>
    obtain ⟨ka, va⟩ := p
    simp only [insertKV]
    split
    case isTrue heq =>
      have hka : ka = k := eq_of_beq heq
      subst hka
      simp only [lookupKV]
      by_cases h : k2 = ka
      · subst h
        simp
      · have : (ka == k2) = false := by
          simp
          exact fun hc => h hc.symm
        simp [h, this]
    case isFalse hne =>
      simp only [lookupKV, ih]
      by_cases h : (ka == k2) = true
      · have hka : ka = k2 := eq_of_beq h
        subst hka
        have : ¬ ka = k := by
          intro hc
          subst hc
          simp at hne
        simp [h, this]
      · simp [h]

theorem contains_iff_mem {l : List String} {a : String} :
    l.contains a = true ↔ a ∈ l := by
  simp [List.elem_iff]

theorem firstOccAux_congr : ∀ {ks s1 s2 : List String},
    (∀ x, x ∈ s1 ↔ x ∈ s2) → firstOccAux s1 ks = firstOccAux s2 ks := by
  intro ks
  induction ks with
  | nil => intro s1 s2 _; rfl
  | cons k t ih =>
    intro s1 s2 h
    have hc : s1.contains k = s2.contains k := by
      rw [Bool.eq_iff_iff]
      simp only [contains_iff_mem]
      exact h k
    simp only [firstOccAux, hc]
    split
    case isTrue => exact ih h
    case isFalse =>
      refine congrArg (List.cons k) (ih ?_)
      intro x
      simp [h x]

theorem map_fst_extract_fold : ∀ (ms : List (String × List Char))
    (acc : List (String × String)),
    ((ms.foldl extractStep acc).map Prod.fst) =
      acc.map Prod.fst ++
        firstOccAux (acc.map Prod.fst) (ms.map (fun m => mkKey m.1 m.2)) := by
  intro ms
  induction ms with
  | nil => intro acc; simp [firstOccAux]
  | cons m t ih =>
    intro acc
    simp only [List.foldl_cons, List.map_cons, firstOccAux]
    have hstep : extractStep acc m = insertKV (mkKey m.1 m.2) (String.mk m.2) acc := rfl
    by_cases hk : mkKey m.1 m.2 ∈ acc.map Prod.fst
    · have hcont : (acc.map Prod.fst).contains (mkKey m.1 m.2) = true :=
        contains_iff_mem.2 hk
      rw [hcont]
      simp only [if_true]
      rw [ih (extractStep acc m), hstep, map_fst_insertKV]
      simp [hk]
    · have hcont : (acc.map Prod.fst).contains (mkKey m.1 m.2) = false := by
        rw [Bool.eq_false_iff]
        intro hc
        exact hk (contains_iff_mem.1 hc)
      rw [hcont]
      simp only [Bool.false_eq_true, if_false]
      rw [ih (extractStep acc m), hstep, map_fst_insertKV]
      simp only [hk, if_false]
      rw [@firstOccAux_congr (t.map (fun m2 => mkKey m2.1 m2.2))
        (acc.map Prod.fst ++ [mkKey m.1 m.2]) (mkKey m.1 m.2 :: acc.map Prod.fst)
        (by intro x; simp; tauto)]
      simp

theorem nodup_extract_fold : ∀ (ms : List (String × List Char))
    (acc : List (String × String)),
    (acc.map Prod.fst).Nodup → ((ms.foldl extractStep acc).map Prod.fst).Nodup := by
  intro ms
  induction ms with
  | nil => intro acc h; exact h
  | cons m t ih =>
    intro acc h
    simp only [List.foldl_cons]
    refine ih (extractStep acc m) ?_
    have hstep : extractStep acc m = insertKV (mkKey m.1 m.2) (String.mk m.2) acc := rfl
    rw [hstep, map_fst_insertKV]
    by_cases hk : mkKey m.1 m.2 ∈ acc.map Prod.fst
    · simp only [hk, if_true]
      exact h
    · simp only [hk, if_false]
      simp [List.nodup_append, h, hk]

theorem lookup_extract_last (k : String) (ms : List (String × List Char)) :
    lookupKV k (ms.foldl extractStep []) =
      lastLookup k (ms.map (fun m => (mkKey m.1 m.2, String.mk m.2))) := by
  induction ms using List.reverseRecOn with
  | nil => rfl
  | append_singleton ms m ih =>
    rw [List.foldl_append, List.map_append]
    simp only [List.foldl_cons, List.foldl_nil]
    have hstep : extractStep (ms.foldl extractStep []) m =
        insertKV (mkKey m.1 m.2) (String.mk m.2) (ms.foldl extractStep []) := rfl
    rw [hstep, lookupKV_insertKV]
    unfold lastLookup
    rw [List.foldl_append]
    simp only [List.map_cons, List.map_nil, List.foldl_cons, List.foldl_nil]
    by_cases h : k = mkKey m.1 m.2
    · subst h
      simp
    · have hbeq : (mkKey m.1 m.2 == k) = false := by
        simp
        exact fun hc => h hc.symm
      simp only [hbeq, Bool.false_eq_true, if_false, h]
      exact ih

theorem extract_fold_mem : ∀ (ms : List (String × List Char))
    (acc : List (String × String)) {kv : String × String},
    kv ∈ ms.foldl extractStep acc →
    kv ∈ acc ∨ ∃ m ∈ ms, kv = (mkKey m.1 m.2, String.mk m.2) := by
  intro ms
  induction ms with
  | nil => intro acc kv h; exact Or.inl h
  | cons m t ih =>
    intro acc kv h
    simp only [List.foldl_cons] at h
    rcases ih (extractStep acc m) h with hacc | ⟨m2, hm2, hkv⟩
    · rcases mem_insertKV hacc with hkv | hacc2
      · exact Or.inr ⟨m, List.mem_cons_self m t, hkv⟩
      · exact Or.inl hacc2
    · exact Or.inr ⟨m2, List.mem_cons_of_mem m hm2, hkv⟩

theorem extract_mem_form {idents : List String} {s : List Char} {kv : String × String}
    (h : kv ∈ extractMatches idents s) :
    ∃ m ∈ findAll idents s, kv = (mkKey m.1 m.2, String.mk m.2) := by
  rcases extract_fold_mem (findAll idents s) [] h with hacc | hex
  · exact absurd hacc (List.not_mem_nil kv)
  · exact hex

/-
Helper lemmas: the walk loop of process_directory.
-/

theorem process_fold_count (excluded idents : List String) :
    ∀ (files : List LuaFile) (b : List (String × List (String × String)))
      (c : Nat) (e : List String),
    (files.foldl (processStep excluded idents) ⟨b, c, e⟩).count =
      c + (files.filter (fun f => !(isExcluded excluded f))).length := by
  intro files
  induction files with
  | nil => intro b c e; simp
  | cons f t ih =>
    intro b c e
    simp only [List.foldl_cons]
    cases hex : isExcluded excluded f with
    | true =>
      simp only [processStep, hex, if_true]
      rw [ih b c e]
      simp [List.filter_cons, hex]
    | false =>
      simp only [processStep, hex, Bool.false_eq_true, if_false]
      rw [ih _ (c + 1) _]
      simp only [List.filter_cons, hex, Bool.not_false, if_true, List.length_cons]
      omega

theorem process_fold_blocks_indep (excluded idents : List String) :
    ∀ (files : List LuaFile) (b : List (String × List (String × String)))
      (c1 : Nat) (e1 : List String) (c2 : Nat) (e2 : List String),
    (files.foldl (processStep excluded idents) ⟨b, c1, e1⟩).blocks =
      (files.foldl (processStep excluded idents) ⟨b, c2, e2⟩).blocks := by
  intro files
  induction files with
  | nil => intro b c1 e1 c2 e2; rfl
  | cons f t ih =>
    intro b c1 e1 c2 e2
    simp only [List.foldl_cons]
    cases hex : isExcluded excluded f with
    | true =>
      simp only [processStep, hex, if_true]
      exact ih b c1 e1 c2 e2
    | false =>
      simp only [processStep, hex, Bool.false_eq_true, if_false]
      exact ih _ _ _ _ _

theorem process_fold_errors_mono (excluded idents : List String) :
    ∀ (files : List LuaFile) (b : List (String × List (String × String)))
      (c : Nat) (e : List String) (x : String), x ∈ e →
    x ∈ (files.foldl (processStep excluded idents) ⟨b, c, e⟩).decodeErrors := by
  intro files
  induction files with
  | nil => intro b c e x hx; exact hx
  | cons f t ih =>
    intro b c e x hx
    simp only [List.foldl_cons]
    cases hex : isExcluded excluded f with
    | true =>
      simp only [processStep, hex, if_true]
      exact ih b c e x hx
    | false =>
      simp only [processStep, hex, Bool.false_eq_true, if_false]
      refine ih _ _ _ x ?_
      by_cases hd : f.decoded.isNone = true
      · simp only [hd, if_true]
        exact List.mem_append_left _ hx
      · simp only [hd, if_false]
        exact hx

theorem process_fold_blocks_spec (excluded idents : List String) :
    ∀ (files : List LuaFile) (b : List (String × List (String × String)))
      (c : Nat) (e : List String),
    (∀ f ∈ files, isExcluded excluded f = false → f.relPath ∉ b.map Prod.fst) →
    (files.map LuaFile.relPath).Nodup →
    (files.foldl (processStep excluded idents) ⟨b, c, e⟩).blocks =
      b ++ specBlockList excluded idents files := by
  intro files
  induction files with
  | nil => intro b c e _ _; simp [specBlockList]
  | cons f t ih =>
    intro b c e hdisj hnd
    simp only [List.map_cons, List.nodup_cons] at hnd
    obtain ⟨hfrel, hndt⟩ := hnd
    simp only [List.foldl_cons]
    cases hex : isExcluded excluded f with
    | true =>
      simp only [processStep, hex, if_true]
      rw [ih b c e (fun f2 hf2 => hdisj f2 (List.mem_cons_of_mem f hf2)) hndt]
      simp [specBlockList, List.filter_cons, hex]
    | false =>
      simp only [processStep, hex, Bool.false_eq_true, if_false]
      cases hstr : (extract_localization_strings idents f.decoded).isEmpty with
      | true =>
        simp only [hstr, if_true]
        rw [ih b _ _ (fun f2 hf2 => hdisj f2 (List.mem_cons_of_mem f hf2)) hndt]
        simp [specBlockList, List.filter_cons, hex, hstr]
      | false =>
        simp only [hstr, Bool.false_eq_true, if_false]
        have hnotmem : f.relPath ∉ b.map Prod.fst :=
          hdisj f (List.mem_cons_self f t) hex
        rw [insertKV_append_of_not_mem _ hnotmem]
        have hdisj2 : ∀ f2 ∈ t, isExcluded excluded f2 = false →
            f2.relPath ∉ (b ++ [(f.relPath, extract_localization_strings idents f.decoded)]).map Prod.fst := by
          intro f2 hf2 hex2
          simp only [List.map_append, List.map_cons, List.map_nil, List.mem_append,
            List.mem_singleton]
          rintro (hb | hr)
          · exact hdisj f2 (List.mem_cons_of_mem f hf2) hex2 hb
          · exact hfrel (hr ▸ List.mem_map_of_mem LuaFile.relPath hf2)
        rw [ih _ _ _ hdisj2 hndt]
        simp only [specBlockList, List.filter_cons, hex, Bool.not_false, if_true,
          List.map_cons, hstr, List.append_assoc, List.cons_append, List.nil_append]

theorem findAll_cons_none {idents : List String} {c : Char} {rest : List Char}
    (h : matchIdentsAt idents (c :: rest) = none) :
    findAll idents (c :: rest) = findAll idents rest := by
  rw [findAll_cons, h]

theorem findAll_cons_some {idents : List String} {c : Char} {rest : List Char}
    {tok : String} {lit rem : List Char}
    (h : matchIdentsAt idents (c :: rest) = some (tok, lit, rem)) :
    findAll idents (c :: rest) = (tok, lit) :: findAll idents rem := by
  rw [findAll_cons, h]

/-
The claims.
-/

/-- C1 counterexample: with the default excluded set, the file whose path
contains the segment Locale has a segment that case-insensitively equals the
excluded name locale, yet the walker does not skip it (the code lowercases
only the excluded name, not the path segment), and it is processed and
counted.  This refutes the claimed iff between skipping and case-insensitive
segment equality. -/
theorem exclusion_case_fold_cex :
    (∃ p ∈ localeFile.parts, ∃ e ∈ get_default_excluded_dirs,
      strLower p = strLower e) ∧
    isExcluded get_default_excluded_dirs localeFile = false ∧
    (process_directory get_default_excluded_dirs ["L"] [localeFile]).count = 1 := by
  refine ⟨⟨"Locale", by decide, "locale", by decide, by decide⟩, by decide, by decide⟩

/-- C1 (amended): a scanned file is skipped by the walker if and only if some
path segment of its path is literally equal to the lowercased form of some
excluded name; the segment itself is not case-folded, and a partial substring
occurrence of an excluded name inside a segment does not cause skipping. -/
theorem exclusion_iff_lowered_segment (excluded : List String) (f : LuaFile) :
    isExcluded excluded f = true ↔
      ∃ e ∈ excluded, ∃ p ∈ f.parts, p = strLower e := by
  simp [isExcluded, List.any_eq_true, contains_iff_mem]

/-- C2 counterexample: the content L bracket quote a newline b quote bracket
contains a substring of exactly the form stated by the claim (identifier,
opening bracket, quote, a run of characters none equal to that quote, the
quote, a closing bracket), yet the scanner extracts nothing, because the
regex dot also refuses the newline inside the literal. -/
theorem match_grammar_newline_cex :
    (∃ u xs v, newlineContent = u ++ xs ++ v ∧
      specClaimMatch litNoQuote ["L"] xs) ∧
    findAll ["L"] newlineContent = [] ∧
    extractMatches ["L"] newlineContent = [] := by
  refine ⟨⟨[], newlineContent, [], by simp, "L", by simp, ['a', nl, 'b'],
    [], '[', '"', ']', by decide, by simp, Or.inl rfl, Or.inl rfl,
    by unfold litNoQuote; decide, Or.inl rfl⟩, by decide, by decide⟩

/-- C2 (amended): the pattern matches at a position if and only if a prefix
of the remaining input consists of one of the identifier tokens, optional
whitespace, an opening bracket (square or round), a quote, a run of
characters none of which is that quote or a newline, the same quote, and a
closing bracket (square or round, independent of the opening bracket); and
every pair found by the left-to-right non-overlapping scan arises from such
a substring of the content. -/
theorem match_grammar_iff (idents : List String) (s : List Char) :
    ((matchIdentsAt idents s).isSome = true ↔
      ∃ xs rest, s = xs ++ rest ∧ specClaimMatch litNoQuoteNoNewline idents xs) ∧
    (∀ tok lit, (tok, lit) ∈ findAll idents s →
      ∃ u xs v, s = u ++ xs ++ v ∧ tok ∈ idents ∧
        specFormWithP litNoQuoteNoNewline tok lit xs) := by
  constructor
  · constructor
    · intro h
      obtain ⟨r, hr⟩ := Option.isSome_iff_exists.1 h
      obtain ⟨tok, lit, rem⟩ := r
      obtain ⟨hmem, xs, hdec, hform⟩ := matchIdentsAt_some_form hr
      exact ⟨xs, rem, hdec, tok, hmem, lit, hform⟩
    · rintro ⟨xs, rest, rfl, tok, hmem, lit, hform⟩
      exact matchIdentsAt_of_form hmem hform
  · intro tok lit h
    obtain ⟨hmem, u, xs, v, hdec, hform⟩ := findAll_form h
    exact ⟨u, xs, v, hdec, hmem, hform⟩

/-- Witness for the amended C2 theorem at a concrete input. -/
theorem match_grammar_iff_witness :
    (matchIdentsAt ["L"] ("L[\"x\"]".toList)).isSome = true ∧
    (∃ u xs v, "L[\"x\"]".toList = u ++ xs ++ v ∧ "L" ∈ ["L"] ∧
      specFormWithP litNoQuoteNoNewline "L" ['x'] xs) :=
  ⟨by decide, (match_grammar_iff ["L"] ("L[\"x\"]".toList)).2 "L" ['x'] (by decide)⟩

/-- C3: extraction of the worked example yields exactly the two canonical
entries, and in general every entry of the per-file mapping is of the form
composite key built from a found match with the matched literal as value,
the key always in square-bracket double-quote style. -/
theorem canonical_key_value :
    extractMatches ["L", "AL", "C"] exampleContent =
      [("L[\"Hello\"]", "Hello"), ("AL[\"World\"]", "World")] ∧
    ∀ (idents : List String) (s : List Char) (kv : String × String),
      kv ∈ extractMatches idents s →
      ∃ m ∈ findAll idents s, kv = (mkKey m.1 m.2, String.mk m.2) := by
  refine ⟨by decide, ?_⟩
  intro idents s kv h
  exact extract_mem_form h

/-- Witness for the C3 theorem at a concrete input. -/
theorem canonical_key_value_witness :
    ∃ m ∈ findAll ["L"] ("L[\"x\"]".toList),
      (("L[\"x\"]" : String), ("x" : String)) = (mkKey m.1 m.2, String.mk m.2) :=
  canonical_key_value.2 ["L"] ("L[\"x\"]".toList) ("L[\"x\"]", "x") (by decide)

/-- C4: when a file fails to decode, its extraction result is empty, the
output blocks of the whole run are exactly those of the run without that
file (all other files are processed unaffected), and when the failing file
is not excluded, its error message is reported. -/
theorem decode_failure_isolated (excluded idents : List String)
    (fs1 fs2 : List LuaFile) (bad : LuaFile) (hbad : bad.decoded = none) :
    extract_localization_strings idents bad.decoded = [] ∧
    (process_directory excluded idents (fs1 ++ bad :: fs2)).blocks =
      (process_directory excluded idents (fs1 ++ fs2)).blocks ∧
    (isExcluded excluded bad = false →
      bad.relPath ∈ (process_directory excluded idents (fs1 ++ bad :: fs2)).decodeErrors) := by
  refine ⟨by rw [hbad]; rfl, ?_, ?_⟩
  · unfold process_directory
    rw [List.foldl_append, List.foldl_append]
    generalize List.foldl (processStep excluded idents) ⟨[], 0, []⟩ fs1 = st
    obtain ⟨b, c, e⟩ := st
    simp only [List.foldl_cons]
    cases hex : isExcluded excluded bad with
    | true => simp only [processStep, hex, if_true]
    | false =>
      simp only [processStep, hex, Bool.false_eq_true, if_false, hbad,
        extract_localization_strings, List.isEmpty_nil, if_true, Option.isNone_none]
      exact process_fold_blocks_indep excluded idents fs2 b (c + 1) _ c e
  · intro hex
    unfold process_directory
    rw [List.foldl_append]
    generalize List.foldl (processStep excluded idents) ⟨[], 0, []⟩ fs1 = st
    obtain ⟨b, c, e⟩ := st
    simp only [List.foldl_cons]
    simp only [processStep, hex, Bool.false_eq_true, if_false, hbad,
      extract_localization_strings, List.isEmpty_nil, if_true, Option.isNone_none]
    exact process_fold_errors_mono excluded idents fs2 _ _ _ bad.relPath (by simp)

/-- Witness for the C4 theorem at a concrete input. -/
theorem decode_failure_isolated_witness :
    extract_localization_strings ["L"] badFile.decoded = [] ∧
    (process_directory get_default_excluded_dirs ["L"] ([goodFile] ++ badFile :: [])).blocks =
      (process_directory get_default_excluded_dirs ["L"] ([goodFile] ++ [])).blocks ∧
    badFile.relPath ∈
      (process_directory get_default_excluded_dirs ["L"] ([goodFile] ++ badFile :: [])).decodeErrors := by
  obtain ⟨h1, h2, h3⟩ :=
    decode_failure_isolated get_default_excluded_dirs ["L"] [goodFile] [] badFile rfl
  exact ⟨h1, h2, h3 (by decide)⟩

/-- C5: the final processed-file count equals the number of non-excluded
files yielded by the walk, independent of whether extraction produced any
strings or the decode failed; excluded files do not increment the count. -/
theorem processed_file_count (excluded idents : List String) (files : List LuaFile) :
    (process_directory excluded idents files).count =
      (files.filter (fun f => !(isExcluded excluded f))).length := by
  have h := process_fold_count excluded idents files [] 0 []
  simpa using h

/-- C6: within one file the key list of the extracted mapping has no
duplicates and lists the composite keys in order of first encounter; the
value stored at any key is the value of the last match with that key in scan
order; and on a concrete input with two key-colliding matches the mapping
has a single entry carrying the later value. -/
theorem duplicate_keys_collapse (idents : List String) (s : List Char) (k : String) :
    ((extractMatches idents s).map Prod.fst).Nodup ∧
    (extractMatches idents s).map Prod.fst =
      firstOccurrences ((findAll idents s).map (fun m => mkKey m.1 m.2)) ∧
    lookupKV k (extractMatches idents s) =
      lastLookup k ((findAll idents s).map (fun m => (mkKey m.1 m.2, String.mk m.2))) ∧
    extractMatches collisionIdents collisionContent = [("L[\"a[\"x\"]", "x")] := by
  refine ⟨?_, ?_, ?_, by decide⟩
  · exact nodup_extract_fold (findAll idents s) [] (by simp)
  · have h := map_fst_extract_fold (findAll idents s) []
    simpa [firstOccurrences] using h
  · exact lookup_extract_last k (findAll idents s)

/-- C7: after a run the target file holds exactly the serialization of the
collected results, independent of its prior contents (the file is opened in
truncating write mode): one block per file that produced at least one
string, in processing order, each block a comment line with the relative
path, one KEY = "VALUE" line per key with the raw literal, and a blank line;
files with zero extracted strings contribute no block. -/
theorem output_overwritten_exact (prior : String) (excluded idents : List String)
    (files : List LuaFile) (hnd : (files.map LuaFile.relPath).Nodup) :
    writeTarget prior (process_directory excluded idents files).blocks =
      specSerialize excluded idents files := by
  have hblocks : (process_directory excluded idents files).blocks =
      specBlockList excluded idents files := by
    have h := process_fold_blocks_spec excluded idents files [] 0 []
      (by intro f hf hex; simp) hnd
    simpa using h
  show serializeBlocks (process_directory excluded idents files).blocks = _
  rw [hblocks]
  rfl

/-- Witness for the C7 theorem at a concrete input. -/
theorem output_overwritten_exact_witness :
    writeTarget "stale" (process_directory get_default_excluded_dirs ["L"] [goodFile]).blocks =
      specSerialize get_default_excluded_dirs ["L"] [goodFile] :=
  output_overwritten_exact "stale" get_default_excluded_dirs ["L"] [goodFile] (by decide)

/-- C10: every value of the extracted per-file mapping is newline-free: a
quoted literal spanning a line break is never matched, so no extracted
value, and hence no VALUE written to the output, contains a newline. -/
theorem extracted_values_newline_free (idents : List String) (s : List Char)
    (kv : String × String) (h : kv ∈ extractMatches idents s) :
    nl ∉ kv.2.data := by
  obtain ⟨m, hm, hkv⟩ := extract_mem_form h
  rw [hkv]
  intro hmem
  exact findAll_lit_ok hm nl hmem rfl

/-- Witness for the C10 theorem at a concrete input. -/
theorem extracted_values_newline_free_witness :
    (("L[\"x\"]" : String), ("x" : String)) ∈ extractMatches ["L"] ("L[\"x\"]".toList) ∧
    nl ∉ ("x" : String).data :=
  ⟨by decide,
    extracted_values_newline_free ["L"] ("L[\"x\"]".toList) ("L[\"x\"]", "x") (by decide)⟩

/-- C9: the pattern enforces no word boundary before the identifier token:
when an identifier occurs as the trailing part of a longer name (here
prefixed with My) immediately followed by a bracketed quoted literal, the
scanner still matches at the embedded identifier and records the entry as if
the bare identifier had been used. -/
theorem no_word_boundary (I : String) (lit : List Char) (c : Char) (cs : List Char)
    (hI : I.toList = c :: cs) (hcM : c ≠ 'M') (hcy : c ≠ 'y')
    (hlit : ∀ ch ∈ lit, ch ≠ '"' ∧ ch ≠ nl) :
    extractMatches [I]
      ('M' :: 'y' :: (I.toList ++ ('[' :: '"' :: (lit ++ ['"', ']'])))) =
      [(mkKey I lit, String.mk lit)] := by
  have hma : matchAfterIdent ('[' :: '"' :: (lit ++ ['"', ']'])) = some (lit, []) := by
    have h := @matchAfterIdent_of_form [] lit [] '[' '"' ']'
      (by simp) (by decide) (by decide)
      (fun ch hch => contOk_iff.2 (hlit ch hch)) (by decide)
    simpa using h
  have hm1 : matchIdentsAt [I]
      ('M' :: 'y' :: (I.toList ++ ('[' :: '"' :: (lit ++ ['"', ']'])))) = none := by
    have hpre : I.toList.isPrefixOf
        ('M' :: 'y' :: (I.toList ++ ('[' :: '"' :: (lit ++ ['"', ']'])))) = false := by
      rw [hI]
      by_contra hc
      rw [Bool.not_eq_false] at hc
      obtain ⟨t2, ht2⟩ := List.isPrefixOf_iff_prefix.1 hc
      have hhead : c = 'M' := by
        have h := congrArg (fun l => l.head?) ht2
        simpa using h
      exact hcM hhead
    simp only [matchIdentsAt, hpre, Bool.false_eq_true, if_false]
  have hm2 : matchIdentsAt [I]
      ('y' :: (I.toList ++ ('[' :: '"' :: (lit ++ ['"', ']'])))) = none := by
    have hpre : I.toList.isPrefixOf
        ('y' :: (I.toList ++ ('[' :: '"' :: (lit ++ ['"', ']'])))) = false := by
      rw [hI]
      by_contra hc
      rw [Bool.not_eq_false] at hc
      obtain ⟨t2, ht2⟩ := List.isPrefixOf_iff_prefix.1 hc
      have hhead : c = 'y' := by
        have h := congrArg (fun l => l.head?) ht2
        simpa using h
      exact hcy hhead
    simp only [matchIdentsAt, hpre, Bool.false_eq_true, if_false]
  have hm3 : matchIdentsAt [I]
      (c :: (cs ++ ('[' :: '"' :: (lit ++ ['"', ']'])))) = some (I, lit, []) := by
    have hpre : I.toList.isPrefixOf
        (c :: (cs ++ ('[' :: '"' :: (lit ++ ['"', ']'])))) = true := by
      rw [hI, ← List.cons_append]
      exact List.isPrefixOf_iff_prefix.2 (List.prefix_append _ _)
    have hdrop : (c :: (cs ++ ('[' :: '"' :: (lit ++ ['"', ']'])))).drop
        I.toList.length = '[' :: '"' :: (lit ++ ['"', ']']) := by
      rw [hI, ← List.cons_append]
      exact List.drop_left _ _
    simp only [matchIdentsAt, hpre, if_true, hdrop, hma]
  have hfa : findAll [I]
      ('M' :: 'y' :: (I.toList ++ ('[' :: '"' :: (lit ++ ['"', ']'])))) = [(I, lit)] := by
    rw [findAll_cons_none hm1, findAll_cons_none hm2, hI, List.cons_append,
      findAll_cons_some hm3]
    rfl
  show (findAll [I]
      ('M' :: 'y' :: (I.toList ++ ('[' :: '"' :: (lit ++ ['"', ']']))))).foldl
      extractStep [] = _
  rw [hfa]
  rfl

/-- Witness for the C9 theorem at a concrete input. -/
theorem no_word_boundary_witness :
    extractMatches ["L"]
      ('M' :: 'y' :: ("L".toList ++ ('[' :: '"' :: (['x'] ++ ['"', ']'])))) =
      [(mkKey "L" ['x'], String.mk ['x'])] :=
  no_word_boundary "L" ['x'] 'L' [] rfl (by decide) (by decide) (by decide)
